import Mathlib

/-!
Verification of the nocaap retrieval and ranking engine.

This file gives a shallow embedding, in Lean 4, of the pure core of the
nocaap documentation-search system: the Reciprocal Rank Fusion algorithm
(src/core/fusion.ts), score normalization, the markdown chunker
(src/core/chunker.ts), the vector-store scoring and error behavior
(src/core/vector-store.ts), and the query orchestration of
SearchEngine.search / SearchEngine.hybridSearch (src/core/search-engine.ts),
together with theorems settling the specification claims about them.

Modelling conventions:
* JavaScript numbers are modelled as exact rationals (ℚ); the algorithms
  under study only add, multiply, divide and compare scores, and the spec's
  statements are about the exact arithmetic.
* JavaScript strings are modelled as Lean `String`, with the string
  operations the code uses (split, trim, toLowerCase, includes, endsWith,
  length) defined explicitly over the character list `String.data`,
  mirroring the JavaScript semantics on the ASCII range; `s.length` is the
  character count.
* `Map` (insertion-ordered in JavaScript) is modelled as an association
  list with insert-or-update-in-place semantics.
* `Array.prototype.sort` (stable in JavaScript) is modelled by the stable
  `List.mergeSort`.
* Fallible methods (functions that `throw`) return `Except String`;
  external backends (Orama, LanceDB, the embedding provider) appear as
  function-valued fields of the engine state, and fields that the source
  initializes lazily (`db`, `table`, `vectorStore`) are `Option`s.
* The TypeScript field `package` is named `pkg` here (`package` reads
  poorly as a Lean field name); everything else keeps the source's names.
-/

set_option maxRecDepth 100000

namespace Nocaap

/-! ## String primitives (JavaScript semantics over character lists) -/

/-- Whitespace predicate used by trim / whitespace-split; on the ASCII range
this agrees with the JavaScript whitespace class. -/
def jsWS (c : Char) : Bool := c.isWhitespace

/-- Trim of a character list: drop leading and trailing whitespace,
as JavaScript `String.prototype.trim`. -/
def trimCL (l : List Char) : List Char :=
  ((l.dropWhile jsWS).reverse.dropWhile jsWS).reverse

/-- JavaScript `s.trim()`. -/
def jsTrim (s : String) : String := ⟨trimCL s.data⟩

/-- JavaScript `s.length` (character count on the ASCII range). -/
def jsLength (s : String) : Nat := s.data.length

/-- JavaScript `body.split('\n')`: split the character list on every single
newline (`List.splitOn` has exactly this semantics, including the leading,
trailing and adjacent-separator empty fragments). -/
def jsSplitLines (s : String) : List String := (s.data.splitOn '\n').map String.mk

/-- JavaScript `lines.join('\n')`. -/
def jsJoinLines (l : List String) : String := ⟨List.intercalate ['\n'] (l.map String.data)⟩

/-- Split a character list on maximal runs of two or more newlines,
as JavaScript `s.split(/\n\n+/)`; `acc` holds the current fragment reversed.
The recursion is structural on a fuel argument (each step consumes at least
one character, so any fuel of at least `l.length + 1` gives the fixpoint);
this keeps the function reducible inside the kernel. -/
def splitParasFuel : Nat → List Char → List Char → List (List Char)
  | 0, _, acc => [acc.reverse]
  | _ + 1, [], acc => [acc.reverse]
  | fuel + 1, c :: rest, acc =>
    if c = '\n' ∧ rest.head? = some '\n' then
      acc.reverse :: splitParasFuel fuel (rest.dropWhile (· = '\n')) []
    else
      splitParasFuel fuel rest (c :: acc)

/-- JavaScript `content.split(/\n\n+/)`. -/
def jsSplitParas (s : String) : List String :=
  (splitParasFuel (s.data.length + 1) s.data []).map String.mk

/-- Split a character list on maximal runs of whitespace,
as JavaScript `s.split(/\s+/)`; `acc` holds the current fragment reversed,
and the recursion is structural on a fuel argument as in `splitParasFuel`. -/
def splitWsFuel : Nat → List Char → List Char → List (List Char)
  | 0, _, acc => [acc.reverse]
  | _ + 1, [], acc => [acc.reverse]
  | fuel + 1, c :: rest, acc =>
    if jsWS c then
      acc.reverse :: splitWsFuel fuel (rest.dropWhile jsWS) []
    else
      splitWsFuel fuel rest (c :: acc)

/-- JavaScript `query.split(/\s+/)`. -/
def jsSplitWs (s : String) : List String :=
  (splitWsFuel (s.data.length + 1) s.data []).map String.mk

/-- JavaScript `s.toLowerCase()` (ASCII range). -/
def jsToLower (s : String) : String := ⟨s.data.map Char.toLower⟩

/-- Decide whether the first list is an initial segment of the second. -/
def preCL : List Char → List Char → Bool
  | [], _ => true
  | _ :: _, [] => false
  | a :: as, b :: bs => a = b && preCL as bs

/-- Decide whether `sub` occurs contiguously inside the second list. -/
def subCL (sub : List Char) : List Char → Bool
  | [] => preCL sub []
  | c :: rest => preCL sub (c :: rest) || subCL sub rest

/-- JavaScript `s.includes(sub)`. -/
def jsIncludes (s sub : String) : Bool := subCL sub.data s.data

/-- JavaScript `s.endsWith(suffix)`. -/
def jsEndsWith (s suffix : String) : Bool := preCL suffix.data.reverse s.data.reverse

/-! ## Fusion data model (src/core/fusion.ts) -/

/-- A single-source search hit (fusion.ts `RankedResult`). -/
structure RankedResult where
  id : String
  content : String
  path : String
  pkg : String
  title : String
  score : ℚ
deriving DecidableEq

/-- The per-source 1-based ranks recorded on a fused result
(fusion.ts `FusionResult.sources`). -/
structure Sources where
  fulltext : Option Nat
  vector : Option Nat
deriving DecidableEq

/-- A cross-source fused result (fusion.ts `FusionResult`). -/
structure FusionResult where
  id : String
  content : String
  path : String
  pkg : String
  title : String
  score : ℚ
  sources : Sources
deriving DecidableEq

/-- Configuration options for RRF (fusion.ts `RRFOptions`); `none` means the
option was not passed and the documented default applies. -/
structure RRFOptions where
  k : Option ℚ := none
  fulltextWeight : Option ℚ := none
  vectorWeight : Option ℚ := none

/-- The value type of the `scores` map inside `reciprocalRankFusion`. -/
structure Entry where
  score : ℚ
  doc : RankedResult
  sources : Sources
deriving DecidableEq

/-- JavaScript `Map.prototype.get` on the insertion-ordered association list. -/
def mapGet (m : List (String × Entry)) (key : String) : Option Entry :=
  match m with
  | [] => none
  | (k, v) :: rest => if k = key then some v else mapGet rest key

/-- JavaScript `Map.prototype.set`: update in place if the key is present
(keeping its position), otherwise append. -/
def mapSet (m : List (String × Entry)) (key : String) (v : Entry) : List (String × Entry) :=
  match m with
  | [] => [(key, v)]
  | (k, v') :: rest => if k = key then (k, v) :: rest else (k, v') :: mapSet rest key v

/-- The update applied to an existing map entry by the `forEach` loops of
`reciprocalRankFusion`: add the weighted reciprocal-rank score
`w * (1 / (k + rank + 1))` (`rank` is 0-based) and record the 1-based rank
in the `sources` field selected by `isFt`. -/
def updatedEntry (isFt : Bool) (w kq : ℚ) (e : Entry) (rank : Nat) : Entry :=
  { e with
    score := e.score + w * (1 / (kq + rank + 1))
    sources :=
      if isFt then { e.sources with fulltext := some (rank + 1) }
      else { e.sources with vector := some (rank + 1) } }

/-- The fresh map entry created by the `forEach` loops of
`reciprocalRankFusion` for a document not seen before. -/
def newEntry (isFt : Bool) (w kq : ℚ) (doc : RankedResult) (rank : Nat) : Entry :=
  { score := w * (1 / (kq + rank + 1))
    doc := doc
    sources := if isFt then ⟨some (rank + 1), none⟩ else ⟨none, some (rank + 1)⟩ }

/-- One iteration of the `forEach` loops in `reciprocalRankFusion`.  The
source has two textually parallel loops (fulltext then vector); `isFt`
selects which of the two is being modelled. -/
def rrfStep (isFt : Bool) (w kq : ℚ) (m : List (String × Entry))
    (doc : RankedResult) (rank : Nat) : List (String × Entry) :=
  match mapGet m doc.id with
  | some existing => mapSet m doc.id (updatedEntry isFt w kq existing rank)
  | none => mapSet m doc.id (newEntry isFt w kq doc rank)

/-- The `results.forEach((doc, rank) => ...)` loop of `reciprocalRankFusion`,
starting at 0-based position `rank`. -/
def processDocs (isFt : Bool) (w kq : ℚ) (m : List (String × Entry)) (rank : Nat) :
    List RankedResult → List (String × Entry)
  | [] => m
  | doc :: rest => processDocs isFt w kq (rrfStep isFt w kq m doc rank) (rank + 1) rest

/-- The `.sort((a, b) => b.score - a.score)` call: stable sort by descending
score.  JavaScript's `Array.prototype.sort` is stable, and a stable sort
with respect to a total preorder has a unique result, so the structurally
recursive stable `insertionSort` computes exactly the JavaScript result. -/
def sortEntriesDesc (l : List Entry) : List Entry :=
  l.insertionSort (fun a b => b.score ≤ a.score)

/-- fusion.ts `reciprocalRankFusion`: combine fulltext and vector result lists
with weighted Reciprocal Rank Fusion (defaults `k = 60`,
`fulltextWeight = 0.4`, `vectorWeight = 0.6`). -/
def reciprocalRankFusion (fulltextResults vectorResults : List RankedResult)
    (options : RRFOptions := {}) : List FusionResult :=
  let k := options.k.getD 60
  let fulltextWeight := options.fulltextWeight.getD (2 / 5)
  let vectorWeight := options.vectorWeight.getD (3 / 5)
  let scores₁ := processDocs true fulltextWeight k [] 0 fulltextResults
  let scores₂ := processDocs false vectorWeight k scores₁ 0 vectorResults
  (sortEntriesDesc (scores₂.map (·.2))).map fun e =>
    { id := e.doc.id
      content := e.doc.content
      path := e.doc.path
      pkg := e.doc.pkg
      title := e.doc.title
      score := e.score
      sources := e.sources }

/-- JavaScript `Math.max(...)` over a list; only applied to non-empty lists in
the source (the `[]` value is never used). -/
def jsMaxList : List ℚ → ℚ
  | [] => 0
  | x :: xs => xs.foldl max x

/-- fusion.ts `normalizeScores`: divide every score by the maximum score,
unless the list is empty or the maximum is zero. -/
def normalizeScores (results : List FusionResult) : List FusionResult :=
  if results.length = 0 then results
  else
    let maxScore := jsMaxList (results.map (·.score))
    if maxScore = 0 then results
    else results.map fun r => { r with score := r.score / maxScore }

/-! ## Chunker (src/core/chunker.ts) -/

/-- chunker.ts `TARGET_CHUNK_SIZE`. -/
def TARGET_CHUNK_SIZE : Nat := 500

/-- chunker.ts `MIN_CHUNK_SIZE`. -/
def MIN_CHUNK_SIZE : Nat := 100

/-- A parsed markdown heading (chunker.ts `parseHeading` result). -/
structure MdHeading where
  level : Nat
  text : String
deriving DecidableEq

/-- chunker.ts `parseHeading`: match the line against `^(#{1,6})\s+(.+)$` and
return the heading level and trimmed text.  The regex matches exactly when
the line starts with one to six `#` characters followed by a whitespace
character and at least one further character; the captured text, once
trimmed, is the trim of everything after the `#` run. -/
def parseHeading (line : String) : Option MdHeading :=
  let hashes := (line.data.takeWhile (· = '#')).length
  let rest := line.data.drop hashes
  if 1 ≤ hashes ∧ hashes ≤ 6 ∧ 2 ≤ rest.length ∧ (rest.head?.map jsWS).getD false then
    some ⟨hashes, jsTrim ⟨rest⟩⟩
  else none

/-- A section produced by `splitByH2Sections` / `splitLargeSection`. -/
structure MdSection where
  headings : List String
  content : String
deriving DecidableEq

/-- The loop state of `splitByH2Sections`. -/
structure SplitState where
  currentHeadings : List String
  currentContent : List String
  h1Seen : Bool
  sections : List MdSection
deriving DecidableEq

/-- The section-flush step of `splitByH2Sections` (performed on each H2 and
once after the loop): push the accumulated content as a section if any lines
were accumulated and the trimmed joined content reaches `MIN_CHUNK_SIZE`. -/
def flushSection (sections : List MdSection) (heads : List String)
    (contentLines : List String) : List MdSection :=
  if contentLines.length > 0 then
    if MIN_CHUNK_SIZE ≤ jsLength (jsTrim (jsJoinLines contentLines)) then
      sections ++ [⟨heads, jsTrim (jsJoinLines contentLines)⟩]
    else sections
  else sections

/-- The per-line step of the `splitByH2Sections` loop. -/
def processLine (documentTitle : String) (st : SplitState) (line : String) : SplitState :=
  match parseHeading line with
  | some h =>
    if h.level = 1 ∧ st.h1Seen = false then
      { st with h1Seen := true }
    else if h.level = 2 then
      { currentHeadings := [documentTitle, h.text]
        currentContent := []
        h1Seen := st.h1Seen
        sections := flushSection st.sections st.currentHeadings st.currentContent }
    else
      let newHeadings :=
        if 3 ≤ h.level then
          match st.currentHeadings with
          | t :: h2 :: _ => [t, h2, h.text]
          | other => other
        else st.currentHeadings
      { st with
        currentHeadings := newHeadings
        currentContent := st.currentContent ++ [line] }
  | none => { st with currentContent := st.currentContent ++ [line] }

/-- chunker.ts `splitByH2Sections`: walk the body line by line, closing the
current section at each level-2 heading, then flush the final section; if
nothing was emitted and the trimmed body reaches `MIN_CHUNK_SIZE`, emit one
section covering the whole trimmed body. -/
def splitByH2Sections (body documentTitle : String) : List MdSection :=
  let lines := jsSplitLines body
  let st := lines.foldl (processLine documentTitle) ⟨[documentTitle], [], false, []⟩
  let sections := flushSection st.sections st.currentHeadings st.currentContent
  if sections.length = 0 ∧ MIN_CHUNK_SIZE ≤ jsLength (jsTrim body) then
    [⟨[documentTitle], jsTrim body⟩]
  else sections

/-- The paragraph-accumulation step of `splitLargeSection`: the pair holds
the `chunks` array and the `currentChunk` accumulator. -/
def paraStep (heads : List String) (acc : List MdSection × String) (para : String) :
    List MdSection × String :=
  if jsLength acc.2 + jsLength para + 2 > TARGET_CHUNK_SIZE then
    (if MIN_CHUNK_SIZE ≤ jsLength (jsTrim acc.2) then
        acc.1 ++ [⟨heads, jsTrim acc.2⟩]
      else acc.1,
      para)
  else
    (acc.1, acc.2 ++ (if acc.2 ≠ "" then "\n\n" else "") ++ para)

/-- The `chunks` array of `splitLargeSection` after the paragraph pass and
the final flush of `currentChunk`. -/
def splitLargeChunks (sec : MdSection) : List MdSection :=
  let r := (jsSplitParas sec.content).foldl (paraStep sec.headings) ([], "")
  if MIN_CHUNK_SIZE ≤ jsLength (jsTrim r.2) then
    r.1 ++ [⟨sec.headings, jsTrim r.2⟩]
  else r.1

/-- chunker.ts `splitLargeSection`: re-split a section larger than
`TARGET_CHUNK_SIZE` on paragraph boundaries, dropping accumulations below
`MIN_CHUNK_SIZE`, and fall back to the unsplit section when the paragraph
pass produced nothing. -/
def splitLargeSection (sec : MdSection) : List MdSection :=
  if jsLength sec.content ≤ TARGET_CHUNK_SIZE then [sec]
  else
    if (splitLargeChunks sec).length > 0 then splitLargeChunks sec else [sec]

/-- Frontmatter-derived metadata copied onto every chunk
(chunker.ts `ChunkMetadata`). -/
structure ChunkMetadata where
  title : String
  summary : Option String
  type : Option String
  tags : List String
deriving DecidableEq

/-- A searchable chunk (chunker.ts `Chunk`). -/
structure Chunk where
  id : String
  content : String
  path : String
  pkg : String
  headings : List String
  metadata : ChunkMetadata
deriving DecidableEq

/-- The pure core of chunker.ts `chunkFile`, after the file has been read and
its frontmatter parsed: split the body into H2 sections, re-split large
sections, and assign ids `"<path>#<n>"` in emission order. -/
def chunkFileCore (relativePath packageAlias : String) (metadata : ChunkMetadata)
    (title body : String) : List Chunk :=
  let sections := splitByH2Sections body title
  let allChunks := sections.flatMap splitLargeSection
  allChunks.enum.map fun (i, c) =>
    { id := relativePath ++ "#" ++ toString i
      content := c.content
      path := relativePath
      pkg := packageAlias
      headings := c.headings
      metadata := metadata }

/-! ## Vector store (src/core/vector-store.ts) -/

/-- A row returned by the LanceDB nearest-neighbor backend; `_distance` is an
optional field, named `distance` here. -/
structure LanceRow where
  id : String
  content : String
  path : String
  pkg : String
  title : String
  distance : Option ℚ
deriving DecidableEq

/-- A vector search hit (vector-store.ts `VectorResult`). -/
structure VectorResult where
  id : String
  content : String
  path : String
  pkg : String
  title : String
  score : ℚ
deriving DecidableEq

/-- The score mapping in `VectorStore.search`:
`r._distance ? 1 / (1 + r._distance) : 1`.  JavaScript truthiness makes both
a missing `_distance` and a zero `_distance` take the `1` branch. -/
def vectorScoreOfDistance (d : Option ℚ) : ℚ :=
  match d with
  | some dist => if dist ≠ 0 then 1 / (1 + dist) else 1
  | none => 1

/-- The state of a `VectorStore`: `table` is `none` until `initialize` (or
`createIndex`) has succeeded; an initialized table is abstracted as the
LanceDB nearest-neighbor query function. -/
structure VectorStoreState where
  table : Option (List ℚ → Nat → List LanceRow)

/-- vector-store.ts `VectorStore.search`: throw when the store is not
initialized, otherwise query the backend and convert distances to
similarity scores. -/
def VectorStoreState.searchQ (vst : VectorStoreState) (queryVector : List ℚ)
    (limit : Nat := 10) : Except String (List VectorResult) :=
  match vst.table with
  | none => Except.error "Vector store not initialized"
  | some tbl =>
    Except.ok ((tbl queryVector limit).map fun r =>
      { id := r.id
        content := r.content
        path := r.path
        pkg := r.pkg
        title := r.title
        score := vectorScoreOfDistance r.distance })

/-! ## Search engine (src/core/search-engine.ts) -/

/-- search-engine.ts `DEFAULT_LIMIT`. -/
def DEFAULT_LIMIT : Nat := 10

/-- search-engine.ts `RRF_FULLTEXT_WEIGHT` (0.4). -/
def RRF_FULLTEXT_WEIGHT : ℚ := 2 / 5

/-- search-engine.ts `RRF_VECTOR_WEIGHT` (0.6). -/
def RRF_VECTOR_WEIGHT : ℚ := 3 / 5

/-- search-engine.ts `STOP_WORDS`. -/
def STOP_WORDS : List String :=
  ["what", "is", "the", "a", "an", "how", "do", "does", "are", "was",
   "were", "been", "being", "have", "has", "had", "having", "who",
   "which", "where", "when", "why", "can", "could", "would", "should",
   "of", "on", "in", "to", "for", "with", "by", "from", "at", "about"]

/-- search-engine.ts `extractQueryKeywords`: lowercase, split on whitespace,
keep tokens longer than two characters that are not stop words. -/
def extractQueryKeywords (query : String) : List String :=
  (jsSplitWs (jsToLower query)).filter fun word =>
    decide (2 < jsLength word) && !(STOP_WORDS.contains word)

/-- search-engine.ts `SearchMode`. -/
inductive SearchMode where
  | fulltext
  | semantic
  | hybrid
deriving DecidableEq

/-- An Orama document as indexed by `createIndex`
(search-engine.ts `OramaDocument`). -/
structure OramaDocument where
  id : String
  content : String
  path : String
  pkg : String
  headings : List String
  title : String
  summary : String
  type : String
  tags : List String
deriving DecidableEq

/-- A hit returned by the Orama backend. -/
structure OramaHit where
  document : OramaDocument
  score : ℚ
deriving DecidableEq

/-- The `where` filter `SearchEngine.search` builds for Orama: a `package`
membership filter and/or a `tags` contains-all filter. -/
structure WhereFilter where
  pkgIn : Option (List String)
  tagsContainsAll : Option (List String)
deriving DecidableEq

/-- The query `SearchEngine.search` passes to the Orama backend. -/
structure OramaQuery where
  term : String
  properties : List String
  limit : Nat
  whereFilter : Option WhereFilter
deriving DecidableEq

/-- A fulltext search result (search-engine.ts `SearchResult`). -/
structure SearchResult where
  id : String
  content : String
  path : String
  pkg : String
  headings : List String
  title : String
  score : ℚ
deriving DecidableEq

/-- The options of `SearchEngine.search`. -/
structure SearchOpts where
  query : String
  packages : Option (List String) := none
  tags : Option (List String) := none
  limit : Option Nat := none

/-- JavaScript truthiness of `xs?.length` for an optional array: false when
the array is absent or empty. -/
def optNonEmpty (o : Option (List String)) : Bool :=
  match o with
  | some l => l.length != 0
  | none => false

/-- The state of a `SearchEngine`: `db` is `none` until `createIndex` or
`loadIndex` has succeeded (a built index is abstracted as the Orama query
function); `vectorStore` is `none` unless `initializeVectorStore` succeeded;
`embed` abstracts `generateQueryEmbedding` with the engine's provider. -/
structure SearchEngineState where
  db : Option (OramaQuery → List OramaHit)
  vectorStore : Option VectorStoreState
  embed : String → Except String (List ℚ)

/-- search-engine.ts `SearchEngine.search`: throw when the engine is not
initialized, otherwise build the optional `where` filter, query Orama over
the four text fields, and convert hits to `SearchResult`s. -/
def SearchEngineState.searchQ (st : SearchEngineState) (options : SearchOpts) :
    Except String (List SearchResult) :=
  match st.db with
  | none => Except.error "Search engine not initialized. Call loadIndex or createIndex first."
  | some db =>
    let limit := options.limit.getD DEFAULT_LIMIT
    let whereFilter : Option WhereFilter :=
      if optNonEmpty options.packages || optNonEmpty options.tags then
        some
          { pkgIn := if optNonEmpty options.packages then options.packages else none
            tagsContainsAll := if optNonEmpty options.tags then options.tags else none }
      else none
    let results := db
      { term := options.query
        properties := ["content", "title", "summary", "headings"]
        limit := limit
        whereFilter := whereFilter }
    Except.ok (results.map fun hit =>
      { id := hit.document.id
        content := hit.document.content
        path := hit.document.path
        pkg := hit.document.pkg
        headings := hit.document.headings
        title := hit.document.title
        score := hit.score })

/-- The options of `SearchEngine.hybridSearch`. -/
structure HybridOpts where
  query : String
  mode : Option SearchMode := none
  packages : Option (List String) := none
  limit : Option Nat := none

/-- A hybrid search result (search-engine.ts `HybridSearchResult`); `sources`
is absent on results coming from the fulltext-only paths. -/
structure HybridSearchResult where
  id : String
  content : String
  path : String
  pkg : String
  headings : List String
  title : String
  score : ℚ
  sources : Option Sources
deriving DecidableEq

/-- View a fulltext `SearchResult` as a `HybridSearchResult` (the TypeScript
code returns the same objects; the optional `sources` field is absent). -/
def srToHybrid (r : SearchResult) : HybridSearchResult :=
  { id := r.id
    content := r.content
    path := r.path
    pkg := r.pkg
    headings := r.headings
    title := r.title
    score := r.score
    sources := none }

/-- The path-keyword boost loop of `hybridSearch`: multiply the score by 1.15
for each query keyword occurring in the lowercased path. -/
def applyPathBoost (queryKeywords : List String) (result : FusionResult) : FusionResult :=
  let pathLower := jsToLower result.path
  let boost := queryKeywords.foldl
    (fun b keyword => if jsIncludes pathLower keyword then b * (115 / 100) else b) 1
  { result with score := result.score * boost }

/-- The index-document boost of `hybridSearch`: multiply the score by 1.25
when the lowercased path ends in `readme.md` or `index.md`. -/
def applyIndexBoost (result : FusionResult) : FusionResult :=
  let pathLower := jsToLower result.path
  if jsEndsWith pathLower "readme.md" || jsEndsWith pathLower "index.md" then
    { result with score := result.score * (125 / 100) }
  else result

/-- The `fused.sort((a, b) => b.score - a.score)` re-sort after boosting
(stable, like `Array.prototype.sort`; see `sortEntriesDesc`). -/
def sortFusionDesc (l : List FusionResult) : List FusionResult :=
  l.insertionSort (fun a b => b.score ≤ a.score)

/-- View a fulltext `SearchResult` as a fusion input (the conversion in
`hybridSearch`). -/
def srToRanked (r : SearchResult) : RankedResult :=
  { id := r.id, content := r.content, path := r.path, pkg := r.pkg
    title := r.title, score := r.score }

/-- View a vector `VectorResult` as a fusion input (the conversion in
`hybridSearch`). -/
def vrToRanked (r : VectorResult) : RankedResult :=
  { id := r.id, content := r.content, path := r.path, pkg := r.pkg
    title := r.title, score := r.score }

/-- search-engine.ts `SearchEngine.hybridSearch`: mode defaults to
`fulltext`; fulltext mode delegates to `search`; semantic and hybrid modes
require the vector store (semantic fails without it, hybrid falls back to
`search`); the hybrid path fuses the two over-fetched lists with RRF,
applies the two boosts, re-sorts, normalizes, and truncates to `limit`. -/
def SearchEngineState.hybridSearchQ (st : SearchEngineState) (options : HybridOpts) :
    Except String (List HybridSearchResult) :=
  let mode := options.mode.getD SearchMode.fulltext
  let limit := options.limit.getD DEFAULT_LIMIT
  if mode = SearchMode.fulltext then
    (st.searchQ ⟨options.query, options.packages, none, some limit⟩).map (·.map srToHybrid)
  else
    match st.vectorStore with
    | none =>
      if mode = SearchMode.semantic then
        Except.error "Vector search not available. Run \"nocaap index --semantic\" first."
      else
        (st.searchQ ⟨options.query, options.packages, none, some limit⟩).map (·.map srToHybrid)
    | some vst => do
      let queryVector ← st.embed options.query
      if mode = SearchMode.semantic then
        let vectorResults ← vst.searchQ queryVector limit
        return vectorResults.map fun r =>
          { id := r.id, content := r.content, path := r.path, pkg := r.pkg
            headings := [], title := r.title, score := r.score
            sources := some ⟨none, some 1⟩ }
      else do
        let fulltextResults ← st.searchQ ⟨options.query, options.packages, none, some (limit * 2)⟩
        let vectorResults ← vst.searchQ queryVector (limit * 2)
        let ftRanked := fulltextResults.map srToRanked
        let vecRanked := vectorResults.map vrToRanked
        let fused := reciprocalRankFusion ftRanked vecRanked
          { fulltextWeight := some RRF_FULLTEXT_WEIGHT, vectorWeight := some RRF_VECTOR_WEIGHT }
        let queryKeywords := extractQueryKeywords options.query
        let boosted := (fused.map (applyPathBoost queryKeywords)).map applyIndexBoost
        let sorted := sortFusionDesc boosted
        let normalized := normalizeScores sorted
        return (normalized.take limit).map fun r =>
          { id := r.id, content := r.content, path := r.path, pkg := r.pkg
            headings := [], title := r.title, score := r.score
            sources := some r.sources }

/-- The mode resolution of the MCP `search` tool handler
(src/core/mcp-server.ts): `mode ?? (hasVectorSearch ? 'hybrid' : 'fulltext')`. -/
def searchToolResolveMode (mode : Option SearchMode) (hasVectorSearch : Bool) : SearchMode :=
  mode.getD (if hasVectorSearch then SearchMode.hybrid else SearchMode.fulltext)

/-! ## Claim C8: vector similarity score -/

/-- C8: for every non-negative raw distance `d` returned by the
nearest-neighbor backend, the vector index reports similarity score
`1 / (1 + d)`, which is strictly positive, at most 1, and strictly
decreasing in the distance. -/
theorem vector_similarity_score (d : ℚ) (hd : 0 ≤ d) :
    vectorScoreOfDistance (some d) = 1 / (1 + d) ∧
    0 < vectorScoreOfDistance (some d) ∧
    vectorScoreOfDistance (some d) ≤ 1 ∧
    ∀ d' : ℚ, d < d' → vectorScoreOfDistance (some d') < vectorScoreOfDistance (some d) := by
  have key : ∀ x : ℚ, 0 ≤ x → vectorScoreOfDistance (some x) = 1 / (1 + x) := by
    intro x _
    by_cases hx : x = 0
    · simp [vectorScoreOfDistance, hx]
    · simp [vectorScoreOfDistance, hx]
  have hpos : (0 : ℚ) < 1 + d := by linarith
  refine ⟨key d hd, ?_, ?_, ?_⟩
  · rw [key d hd]
    positivity
  · rw [key d hd]
    rw [div_le_one hpos]
    linarith
  · intro d' hd'
    rw [key d hd, key d' (le_trans hd hd'.le)]
    apply one_div_lt_one_div_of_lt hpos
    linarith

/-- Witness for C8 at the concrete distance 2. -/
theorem vector_similarity_score_witness :
    (0 : ℚ) ≤ 2 ∧
    (vectorScoreOfDistance (some 2) = 1 / (1 + 2) ∧
     0 < vectorScoreOfDistance (some 2) ∧
     vectorScoreOfDistance (some 2) ≤ 1 ∧
     ∀ d' : ℚ, 2 < d' → vectorScoreOfDistance (some d') < vectorScoreOfDistance (some 2)) :=
  ⟨by norm_num, vector_similarity_score 2 (by norm_num)⟩

/-! ## Claim C9: the two boosts commute -/

/-- C9: the path-keyword boost (× 1.15 per query keyword occurring in the
lowercased path) and the index-file boost (× 1.25 when the lowercased path
ends in `readme.md` or `index.md`) commute: applying them in either order to
any fused result yields the same final result. -/
theorem boosts_commute (query : String) (r : FusionResult) :
    applyIndexBoost (applyPathBoost (extractQueryKeywords query) r) =
      applyPathBoost (extractQueryKeywords query) (applyIndexBoost r) := by
  cases r with
  | mk id content path pkg title score sources =>
    simp only [applyPathBoost, applyIndexBoost]
    split
    · simp only [FusionResult.mk.injEq, and_true, true_and]
      ring
    · rfl

/-! ## Claim C7: uninitialized indexes reject queries -/

/-- C7: a search against an engine whose lexical index has not been built or
loaded, and a vector search against an uninitialized vector store, both fail
with their distinguishable not-ready errors instead of returning an empty
result list. -/
theorem uninitialized_search_errors (st : SearchEngineState) (options : SearchOpts)
    (vst : VectorStoreState) (queryVector : List ℚ) (limit : Nat)
    (hdb : st.db = none) (htbl : vst.table = none) :
    st.searchQ options =
      Except.error "Search engine not initialized. Call loadIndex or createIndex first." ∧
    st.searchQ options ≠ Except.ok [] ∧
    vst.searchQ queryVector limit = Except.error "Vector store not initialized" ∧
    vst.searchQ queryVector limit ≠ Except.ok [] := by
  refine ⟨?_, ?_, ?_, ?_⟩
  · simp [SearchEngineState.searchQ, hdb]
  · simp [SearchEngineState.searchQ, hdb]
  · simp [VectorStoreState.searchQ, htbl]
  · simp [VectorStoreState.searchQ, htbl]

/-- Witness for C7 on concrete uninitialized states. -/
theorem uninitialized_search_errors_witness :
    (SearchEngineState.mk none none (fun _ => Except.ok [])).searchQ ⟨"q", none, none, none⟩ =
      Except.error "Search engine not initialized. Call loadIndex or createIndex first." ∧
    (SearchEngineState.mk none none (fun _ => Except.ok [])).searchQ ⟨"q", none, none, none⟩ ≠
      Except.ok [] ∧
    (VectorStoreState.mk none).searchQ [1] 10 = Except.error "Vector store not initialized" ∧
    (VectorStoreState.mk none).searchQ [1] 10 ≠ Except.ok [] :=
  uninitialized_search_errors _ _ _ _ _ rfl rfl

/-! ## Claim C6: semantic fails without vectors, hybrid degrades -/

/-- C6: on an initialized engine with no vector store, `hybridSearch` in
semantic mode fails with the distinguishable vector-search-unavailable
error, while in hybrid mode it does not fail and returns exactly the
fulltext search results for the same query, packages and limit. -/
theorem hybrid_degrades_without_vectors (st : SearchEngineState) (q : String)
    (p : Option (List String)) (l : Option Nat) (dbf : OramaQuery → List OramaHit)
    (hv : st.vectorStore = none) (hdb : st.db = some dbf) :
    st.hybridSearchQ ⟨q, some SearchMode.semantic, p, l⟩ =
      Except.error "Vector search not available. Run \"nocaap index --semantic\" first." ∧
    st.hybridSearchQ ⟨q, some SearchMode.hybrid, p, l⟩ =
      (st.searchQ ⟨q, p, none, some (l.getD DEFAULT_LIMIT)⟩).map (·.map srToHybrid) ∧
    ∃ rs, st.hybridSearchQ ⟨q, some SearchMode.hybrid, p, l⟩ = Except.ok rs := by
  refine ⟨?_, ?_, ?_⟩
  · simp [SearchEngineState.hybridSearchQ, hv]
  · simp [SearchEngineState.hybridSearchQ, hv]
  · simp only [SearchEngineState.hybridSearchQ, SearchEngineState.searchQ, hv, hdb]
    exact ⟨_, rfl⟩

/-- Witness for C6 on a concrete initialized engine without a vector store. -/
theorem hybrid_degrades_without_vectors_witness :
    (SearchEngineState.mk (some fun _ => []) none (fun _ => Except.ok [])).hybridSearchQ
        ⟨"q", some SearchMode.semantic, none, none⟩ =
      Except.error "Vector search not available. Run \"nocaap index --semantic\" first." ∧
    (SearchEngineState.mk (some fun _ => []) none (fun _ => Except.ok [])).hybridSearchQ
        ⟨"q", some SearchMode.hybrid, none, none⟩ =
      ((SearchEngineState.mk (some fun _ => []) none (fun _ => Except.ok [])).searchQ
        ⟨"q", none, none, some ((none : Option Nat).getD DEFAULT_LIMIT)⟩).map (·.map srToHybrid) ∧
    ∃ rs, (SearchEngineState.mk (some fun _ => []) none (fun _ => Except.ok [])).hybridSearchQ
        ⟨"q", some SearchMode.hybrid, none, none⟩ = Except.ok rs :=
  hybrid_degrades_without_vectors _ "q" none none _ rfl rfl

/-! ## Claim C4: default search mode -/

/-- Decidable equality of `Except` values, used to evaluate concrete engine
outcomes. -/
instance {ε α : Type} [DecidableEq ε] [DecidableEq α] : DecidableEq (Except ε α) := fun a b =>
  match a, b with
  | Except.ok x, Except.ok y =>
    if h : x = y then isTrue (by rw [h]) else isFalse (by simp [h])
  | Except.error x, Except.error y =>
    if h : x = y then isTrue (by rw [h]) else isFalse (by simp [h])
  | Except.ok _, Except.error _ => isFalse (by simp)
  | Except.error _, Except.ok _ => isFalse (by simp)

/-- A concrete Orama document for the C4 counterexample. -/
def c4Doc : OramaDocument :=
  { id := "f1", content := "ft content", path := "docs/guide.md", pkg := "k"
    headings := [], title := "Guide", summary := "", type := "", tags := [] }

/-- A concrete engine state with both a lexical index and a vector store,
for the C4 counterexample. -/
def c4St : SearchEngineState :=
  { db := some fun _ => [⟨c4Doc, 5⟩]
    vectorStore := some ⟨some fun _ _ => [⟨"v1", "vec content", "docs/api.md", "k", "Api", some 1⟩]⟩
    embed := fun _ => Except.ok [1] }

/-- Counterexample to C4 as stated: on an engine with a vector store,
calling `hybridSearch` without a mode argument does not behave like the
vector-present default mode (`hybrid`); the call without a mode returns the
fulltext results while the `hybrid` call returns fused results. -/
theorem hybrid_default_mode_cex :
    (HybridOpts.mk "zzz" none none none).mode = none ∧
    c4St.vectorStore.isSome = true ∧
    c4St.hybridSearchQ ⟨"zzz", none, none, none⟩ ≠
      c4St.hybridSearchQ
        ⟨"zzz", some (if c4St.vectorStore.isSome then SearchMode.hybrid else SearchMode.fulltext),
          none, none⟩ := by
  refine ⟨rfl, rfl, ?_⟩
  with_unfolding_all decide

/-- C4 as amended: `hybridSearch` itself defaults an absent mode to
`fulltext` unconditionally; the vector-dependent defaulting (`hybrid` if a
vector index is present, else `fulltext`) is performed by the MCP search
tool handler before calling `hybridSearch`. -/
theorem hybrid_default_mode (st : SearchEngineState) (options : HybridOpts)
    (h : options.mode = none) :
    st.hybridSearchQ options = st.hybridSearchQ { options with mode := some SearchMode.fulltext } ∧
    ∀ hasVectorSearch : Bool,
      searchToolResolveMode none hasVectorSearch =
        (if hasVectorSearch then SearchMode.hybrid else SearchMode.fulltext) := by
  constructor
  · simp [SearchEngineState.hybridSearchQ, h]
  · intro hasVectorSearch
    rfl

/-- Witness for C4 (amended) on a concrete engine and options. -/
theorem hybrid_default_mode_witness :
    (HybridOpts.mk "zzz" none none none).mode = none ∧
    (c4St.hybridSearchQ ⟨"zzz", none, none, none⟩ =
      c4St.hybridSearchQ { HybridOpts.mk "zzz" none none none with mode := some SearchMode.fulltext } ∧
     ∀ hasVectorSearch : Bool,
       searchToolResolveMode none hasVectorSearch =
         (if hasVectorSearch then SearchMode.hybrid else SearchMode.fulltext)) :=
  ⟨rfl, hybrid_default_mode c4St ⟨"zzz", none, none, none⟩ rfl⟩

/-! ## Claim C2: normalizeScores -/

/-- The fold underlying `jsMaxList` returns one of its inputs. -/
lemma foldl_max_mem (x : ℚ) (xs : List ℚ) : xs.foldl max x ∈ x :: xs := by
  induction xs generalizing x with
  | nil => simp
  | cons y ys ih =>
    simp only [List.foldl_cons]
    rcases List.mem_cons.mp (ih (max x y)) with h | h
    · rw [h]
      rcases max_choice x y with hm | hm <;> simp [hm]
    · simp [h]

/-- The fold underlying `jsMaxList` bounds all of its inputs. -/
lemma le_foldl_max (x : ℚ) (xs : List ℚ) : ∀ y ∈ x :: xs, y ≤ xs.foldl max x := by
  induction xs generalizing x with
  | nil =>
    intro y hy
    simp only [List.mem_singleton] at hy
    simp [hy]
  | cons z zs ih =>
    intro y hy
    simp only [List.foldl_cons]
    have hbase : max x z ≤ List.foldl max (max x z) zs :=
      ih (max x z) _ (List.mem_cons_self _ _)
    rcases List.mem_cons.mp hy with rfl | h
    · exact le_trans (le_max_left _ z) hbase
    · rcases List.mem_cons.mp h with rfl | h2
      · exact le_trans (le_max_right x _) hbase
      · exact ih (max x z) y (List.mem_cons_of_mem _ h2)

/-- `jsMaxList` of a non-empty list is one of its elements. -/
lemma jsMaxList_mem {l : List ℚ} (h : l ≠ []) : jsMaxList l ∈ l := by
  cases l with
  | nil => exact absurd rfl h
  | cons x xs => exact foldl_max_mem x xs

/-- Every element of a list is at most its `jsMaxList`. -/
lemma le_jsMaxList {l : List ℚ} {y : ℚ} (hy : y ∈ l) : y ≤ jsMaxList l := by
  cases l with
  | nil => cases hy
  | cons x xs => exact le_foldl_max x xs y hy

/-- The all-zero default result used as a list-index fallback below. -/
def fr0 : FusionResult := ⟨"", "", "", "", "", 0, ⟨none, none⟩⟩

/-- C2 as amended: `normalizeScores` returns the empty list on the empty
list; it returns any list whose maximum score is zero unchanged (never
dividing by zero); and on a non-empty list of nonnegative scores whose
maximum is positive it divides every score by the maximum, so the final
scores are in `[0, 1]`, some result scores exactly 1, and both the result
order and the relative score order are unchanged.  (The nonnegativity
hypothesis is the amendment: on a list containing a negative score the
normalized scores are not all in `[0, 1]`.) -/
theorem normalizeScores_spec :
    normalizeScores [] = [] ∧
    (∀ results : List FusionResult, results ≠ [] →
      jsMaxList (results.map (·.score)) = 0 → normalizeScores results = results) ∧
    (∀ results : List FusionResult, results ≠ [] →
      (∀ r ∈ results, 0 ≤ r.score) →
      0 < jsMaxList (results.map (·.score)) →
      normalizeScores results =
        results.map (fun r => { r with score := r.score / jsMaxList (results.map (·.score)) }) ∧
      (∀ r ∈ normalizeScores results, 0 ≤ r.score ∧ r.score ≤ 1) ∧
      (∃ r ∈ normalizeScores results, r.score = 1) ∧
      (∀ i j, i < results.length → j < results.length →
        (((normalizeScores results).getD i fr0).score ≤
            ((normalizeScores results).getD j fr0).score ↔
          ((results.getD i fr0).score ≤ (results.getD j fr0).score)))) := by
  refine ⟨rfl, ?_, ?_⟩
  · intro results hne hmax
    unfold normalizeScores
    simp [hmax]
  · intro results hne hnonneg hpos
    have hlen : ¬ results.length = 0 := by simpa [List.length_eq_zero] using hne
    have hM : jsMaxList (results.map (·.score)) ≠ 0 := ne_of_gt hpos
    have hmap : normalizeScores results =
        results.map (fun r => { r with score := r.score / jsMaxList (results.map (·.score)) }) := by
      unfold normalizeScores
      simp [hlen, hM]
    refine ⟨hmap, ?_, ?_, ?_⟩
    · intro r hr
      rw [hmap] at hr
      obtain ⟨s, hs, rfl⟩ := List.mem_map.mp hr
      constructor
      · exact div_nonneg (hnonneg s hs) hpos.le
      · rw [div_le_one hpos]
        exact le_jsMaxList (List.mem_map.mpr ⟨s, hs, rfl⟩)
    · have hmem : jsMaxList (results.map (·.score)) ∈ results.map (·.score) :=
        jsMaxList_mem (by simpa using hne)
      obtain ⟨s, hs, hscore⟩ := List.mem_map.mp hmem
      refine ⟨{ s with score := s.score / jsMaxList (results.map (·.score)) }, ?_, ?_⟩
      · rw [hmap]
        exact List.mem_map.mpr ⟨s, hs, rfl⟩
      · simp only
        rw [hscore, div_self hM]
    · intro i j hi hj
      have hg : ∀ t, t < results.length →
          ((normalizeScores results).getD t fr0).score = (results.getD t fr0).score /
            jsMaxList (results.map (·.score)) := by
        intro t ht
        rw [hmap, List.getD_eq_getElem?_getD, List.getElem?_map,
          List.getElem?_eq_getElem ht]
        simp [List.getD_eq_getElem?_getD, List.getElem?_eq_getElem ht]
      rw [hg i hi, hg j hj]
      exact div_le_div_iff_of_pos_right hpos

/-- Witness for C2 on a concrete singleton list with score 1. -/
theorem normalizeScores_spec_witness :
    ([⟨"a", "c", "p", "k", "T", 1, ⟨none, none⟩⟩] : List FusionResult) ≠ [] ∧
    (∀ r ∈ ([⟨"a", "c", "p", "k", "T", 1, ⟨none, none⟩⟩] : List FusionResult), 0 ≤ r.score) ∧
    0 < jsMaxList (([⟨"a", "c", "p", "k", "T", 1, ⟨none, none⟩⟩] : List FusionResult).map (·.score)) ∧
    normalizeScores [⟨"a", "c", "p", "k", "T", 1, ⟨none, none⟩⟩] =
      ([⟨"a", "c", "p", "k", "T", 1, ⟨none, none⟩⟩] : List FusionResult).map
        (fun r =>
          { r with
            score := r.score / jsMaxList (([⟨"a", "c", "p", "k", "T", 1, ⟨none, none⟩⟩] :
              List FusionResult).map (·.score)) }) := by
  refine ⟨by simp, by with_unfolding_all decide, by with_unfolding_all decide, ?_⟩
  exact (normalizeScores_spec.2.2 _ (by simp) (by with_unfolding_all decide)
    (by with_unfolding_all decide)).1

/-- Counterexample to C2 as stated: on a list containing a negative score
whose maximum is positive, the normalized scores are not all in `[0, 1]`. -/
theorem normalizeScores_cex :
    ([⟨"a", "c", "p", "k", "T", -1, ⟨none, none⟩⟩, ⟨"b", "c", "p", "k", "T", 1, ⟨none, none⟩⟩] :
        List FusionResult) ≠ [] ∧
    0 < jsMaxList (([⟨"a", "c", "p", "k", "T", -1, ⟨none, none⟩⟩,
        ⟨"b", "c", "p", "k", "T", 1, ⟨none, none⟩⟩] : List FusionResult).map (·.score)) ∧
    ¬ (∀ r ∈ normalizeScores [⟨"a", "c", "p", "k", "T", -1, ⟨none, none⟩⟩,
        ⟨"b", "c", "p", "k", "T", 1, ⟨none, none⟩⟩], 0 ≤ r.score ∧ r.score ≤ 1) := by
  refine ⟨by simp, by with_unfolding_all decide, ?_⟩
  with_unfolding_all decide

/-! ## Claim C3: minimum chunk size -/

/-- A section emitted by the flush step is either an old section or meets
the minimum length. -/
lemma flushSection_mem {sections : List MdSection} {heads : List String}
    {contentLines : List String} {sec : MdSection}
    (h : sec ∈ flushSection sections heads contentLines) :
    sec ∈ sections ∨ MIN_CHUNK_SIZE ≤ jsLength sec.content := by
  unfold flushSection at h
  split at h
  · split at h
    · rcases List.mem_append.mp h with h1 | h1
      · exact Or.inl h1
      · simp only [List.mem_singleton] at h1
        subst h1
        right
        assumption
    · exact Or.inl h
  · exact Or.inl h

/-- A section present after one loop step of `splitByH2Sections` is either
an old section or meets the minimum length. -/
lemma processLine_sections {documentTitle line : String} {st : SplitState} {sec : MdSection}
    (h : sec ∈ (processLine documentTitle st line).sections) :
    sec ∈ st.sections ∨ MIN_CHUNK_SIZE ≤ jsLength sec.content := by
  unfold processLine at h
  rcases hp : parseHeading line with _ | hh <;> rw [hp] at h
  · exact Or.inl h
  · simp only at h
    split at h
    · exact Or.inl h
    · split at h
      · exact flushSection_mem h
      · exact Or.inl h

/-- A section present after the whole loop of `splitByH2Sections` is either
an initial section or meets the minimum length. -/
lemma foldl_processLine_sections (documentTitle : String) (lines : List String) :
    ∀ (st : SplitState) (sec : MdSection),
      sec ∈ (lines.foldl (processLine documentTitle) st).sections →
      sec ∈ st.sections ∨ MIN_CHUNK_SIZE ≤ jsLength sec.content := by
  induction lines with
  | nil => exact fun st sec h => Or.inl h
  | cons l ls ih =>
    intro st sec h
    rcases ih _ sec h with h1 | h1
    · exact processLine_sections h1
    · exact Or.inr h1

/-- Every section produced by `splitByH2Sections` meets the minimum length. -/
lemma splitByH2Sections_min {body documentTitle : String} {sec : MdSection}
    (h : sec ∈ splitByH2Sections body documentTitle) :
    MIN_CHUNK_SIZE ≤ jsLength sec.content := by
  simp only [splitByH2Sections] at h
  split at h
  · simp only [List.mem_singleton] at h
    subst h
    rename_i hguard
    exact hguard.2
  · rcases flushSection_mem h with h1 | h1
    · rcases foldl_processLine_sections _ _ _ _ h1 with h2 | h2
      · simp at h2
      · exact h2
    · exact h1

/-- A chunk present after one paragraph-accumulation step is either an old
chunk or meets the minimum length. -/
lemma paraStep_fst {heads : List String} {acc : List MdSection × String} {para : String}
    {sec : MdSection} (h : sec ∈ (paraStep heads acc para).1) :
    sec ∈ acc.1 ∨ MIN_CHUNK_SIZE ≤ jsLength sec.content := by
  unfold paraStep at h
  split at h
  · dsimp only at h
    split at h
    · rcases List.mem_append.mp h with h1 | h1
      · exact Or.inl h1
      · simp only [List.mem_singleton] at h1
        subst h1
        right
        assumption
    · exact Or.inl h
  · exact Or.inl h

/-- A chunk present after the whole paragraph pass is either an initial
chunk or meets the minimum length. -/
lemma foldl_paraStep_fst (heads : List String) (paras : List String) :
    ∀ (acc : List MdSection × String) (sec : MdSection),
      sec ∈ (paras.foldl (paraStep heads) acc).1 →
      sec ∈ acc.1 ∨ MIN_CHUNK_SIZE ≤ jsLength sec.content := by
  induction paras with
  | nil => exact fun acc sec h => Or.inl h
  | cons p ps ih =>
    intro acc sec h
    rcases ih _ sec h with h1 | h1
    · exact paraStep_fst h1
    · exact Or.inr h1

/-- Every chunk of the paragraph pass meets the minimum length. -/
lemma splitLargeChunks_min {sec : MdSection} :
    ∀ c ∈ splitLargeChunks sec, MIN_CHUNK_SIZE ≤ jsLength c.content := by
  intro c hc
  simp only [splitLargeChunks] at hc
  split at hc
  · rcases List.mem_append.mp hc with h1 | h1
    · rcases foldl_paraStep_fst _ _ _ _ h1 with h2 | h2
      · simp at h2
      · exact h2
    · simp only [List.mem_singleton] at h1
      subst h1
      assumption
  · rcases foldl_paraStep_fst _ _ _ _ hc with h2 | h2
    · simp at h2
    · exact h2

/-- `splitLargeSection` preserves the minimum length. -/
lemma splitLargeSection_min {sec : MdSection}
    (hs : MIN_CHUNK_SIZE ≤ jsLength sec.content) :
    ∀ c ∈ splitLargeSection sec, MIN_CHUNK_SIZE ≤ jsLength c.content := by
  intro c hc
  simp only [splitLargeSection] at hc
  split at hc
  · simp only [List.mem_singleton] at hc
    subst hc
    exact hs
  · split at hc
    · exact splitLargeChunks_min c hc
    · simp only [List.mem_singleton] at hc
      subst hc
      exact hs

/-- Chunks of the paragraph pass carry the section's heading path. -/
lemma splitLargeChunks_headings {sec : MdSection} :
    ∀ c ∈ splitLargeChunks sec, c.headings = sec.headings := by
  have aux : ∀ (paras : List String) (acc : List MdSection × String) (c : MdSection),
      c ∈ (paras.foldl (paraStep sec.headings) acc).1 →
      c ∈ acc.1 ∨ c.headings = sec.headings := by
    intro paras
    induction paras with
    | nil => exact fun acc c h => Or.inl h
    | cons p ps ih =>
      intro acc c h
      rcases ih _ c h with h1 | h1
      · unfold paraStep at h1
        split at h1
        · dsimp only at h1
          split at h1
          · rcases List.mem_append.mp h1 with h2 | h2
            · exact Or.inl h2
            · simp only [List.mem_singleton] at h2
              subst h2
              exact Or.inr rfl
          · exact Or.inl h1
        · exact Or.inl h1
      · exact Or.inr h1
  intro c hc
  simp only [splitLargeChunks] at hc
  split at hc
  · rcases List.mem_append.mp hc with h1 | h1
    · rcases aux _ _ _ h1 with h2 | h2
      · simp at h2
      · exact h2
    · simp only [List.mem_singleton] at h1
      subst h1
      rfl
  · rcases aux _ _ _ hc with h2 | h2
    · simp at h2
    · exact h2

/-- `splitLargeSection` preserves the heading path. -/
lemma splitLargeSection_headings {sec : MdSection} :
    ∀ c ∈ splitLargeSection sec, c.headings = sec.headings := by
  intro c hc
  simp only [splitLargeSection] at hc
  split at hc
  · simp only [List.mem_singleton] at hc
    subst hc
    rfl
  · split at hc
    · exact splitLargeChunks_headings c hc
    · simp only [List.mem_singleton] at hc
      subst hc
      rfl

/-- The 120-character introduction of the C3 drop example. -/
def c3Intro : String := String.mk (List.replicate 120 'i')

/-- The 120-character closing section of the C3 drop example. -/
def c3Long : String := String.mk (List.replicate 120 'l')

/-- A document body whose middle H2 section accumulates only the
8-character fragment `shortbit`. -/
def c3Body : String := c3Intro ++ "\n## Alpha\nshortbit\n## Beta\n" ++ c3Long

/-- C3: every chunk emitted by the chunker has content length at least
`MIN_CHUNK_SIZE` (in particular every chunk not produced by the
whole-document fallback does), and accumulated fragments shorter than
`MIN_CHUNK_SIZE` are dropped rather than merged into a neighboring section:
in the concrete document `c3Body` the 8-character fragment under `## Alpha`
appears in no chunk at all. -/
theorem chunk_min_size :
    (∀ relativePath packageAlias metadata title body,
      ∀ c ∈ chunkFileCore relativePath packageAlias metadata title body,
        MIN_CHUNK_SIZE ≤ jsLength c.content) ∧
    (chunkFileCore "d.md" "k" ⟨"T", none, none, []⟩ "T" c3Body).map (fun c => c.content) =
      [c3Intro, c3Long] ∧
    (∀ c ∈ chunkFileCore "d.md" "k" ⟨"T", none, none, []⟩ "T" c3Body,
      jsIncludes c.content "shortbit" = false) := by
  refine ⟨?_, by decide, by decide⟩
  intro relativePath packageAlias metadata title body c hc
  simp only [chunkFileCore] at hc
  obtain ⟨⟨i, s⟩, hmem, rfl⟩ := List.mem_map.mp hc
  have hsmem : s ∈ (splitByH2Sections body title).flatMap splitLargeSection := by
    have := List.enum_map_snd ((splitByH2Sections body title).flatMap splitLargeSection)
    rw [← this]
    exact List.mem_map.mpr ⟨(i, s), hmem, rfl⟩
  obtain ⟨sec, hsec, hs⟩ := List.mem_flatMap.mp hsmem
  exact splitLargeSection_min (splitByH2Sections_min hsec) s hs

/-- Witness for C3's universal part at a concrete document and chunk. -/
theorem chunk_min_size_witness :
    (⟨"d.md#0", c3Intro, "d.md", "k", ["T"], ⟨"T", none, none, []⟩⟩ : Chunk) ∈
      chunkFileCore "d.md" "k" ⟨"T", none, none, []⟩ "T" c3Body ∧
    MIN_CHUNK_SIZE ≤
      jsLength (Chunk.content ⟨"d.md#0", c3Intro, "d.md", "k", ["T"], ⟨"T", none, none, []⟩⟩) :=
  ⟨by decide, chunk_min_size.1 "d.md" "k" ⟨"T", none, none, []⟩ "T" c3Body _ (by decide)⟩

/-! ## Claim C5: documents without level-2 headings -/

/-- Trimming never lengthens a character list. -/
lemma trimCL_length_le (l : List Char) : (trimCL l).length ≤ l.length := by
  simp only [trimCL, List.length_reverse]
  exact le_trans ((List.dropWhile_sublist _).length_le)
    (by simpa using (List.dropWhile_sublist (l := l) jsWS).length_le)

/-- Trimming never lengthens a string. -/
lemma jsLength_jsTrim_le (s : String) : jsLength (jsTrim s) ≤ jsLength s :=
  trimCL_length_le s.data

/-- Joining the split lines reproduces the original string. -/
lemma jsJoinLines_jsSplitLines (s : String) : jsJoinLines (jsSplitLines s) = s := by
  simp only [jsJoinLines, jsSplitLines, List.map_map]
  have hmm : (String.data ∘ String.mk) = id := rfl
  rw [hmm, List.map_id, List.intercalate_splitOn]

/-- The length of a newline-join in terms of the fragment lengths. -/
lemma length_intercalate_newline : ∀ xs : List (List Char),
    (List.intercalate ['\n'] xs).length = (xs.map List.length).sum + (xs.length - 1)
  | [] => by simp [List.intercalate]
  | [a] => by simp [List.intercalate]
  | a :: b :: t => by
    have ih := length_intercalate_newline (b :: t)
    simp only [List.intercalate] at ih ⊢
    rw [List.intersperse_cons_cons, List.flatten_cons, List.flatten_cons]
    simp only [List.length_append, List.map_cons, List.sum_cons, List.length_cons,
      List.length_nil]
    simp only [List.map_cons, List.sum_cons, List.length_cons] at ih
    omega

/-- Joining a sublist of the lines yields at most the full join's length. -/
lemma jsJoinLines_mono {cc ll : List String} (h : List.Sublist cc ll) :
    jsLength (jsJoinLines cc) ≤ jsLength (jsJoinLines ll) := by
  simp only [jsLength, jsJoinLines]
  rw [length_intercalate_newline, length_intercalate_newline]
  have h1 : List.Sublist ((cc.map String.data).map List.length)
      ((ll.map String.data).map List.length) :=
    (h.map _).map _
  have h2 := List.Sublist.sum_le_sum h1 (fun a _ => Nat.zero_le a)
  have h3 : cc.length ≤ ll.length := h.length_le
  simp only [List.length_map]
  omega

/-- On a line list without level-2 headings, the `splitByH2Sections` loop
never flushes: it ends with no sections, the initial heading path, and a
content accumulator that is a sublist of the processed lines. -/
lemma foldl_no_h2 (documentTitle : String) :
    ∀ (lines : List String) (st : SplitState),
      (∀ line ∈ lines, ∀ hh, parseHeading line = some hh → hh.level ≠ 2) →
      st.sections = [] → st.currentHeadings = [documentTitle] →
      (lines.foldl (processLine documentTitle) st).sections = [] ∧
      (lines.foldl (processLine documentTitle) st).currentHeadings = [documentTitle] ∧
      List.Sublist (lines.foldl (processLine documentTitle) st).currentContent
        (st.currentContent ++ lines) := by
  intro lines
  induction lines with
  | nil =>
    intro st _ hsec hhead
    exact ⟨hsec, hhead, by simp⟩
  | cons l ls ih =>
    intro st hno2 hsec hhead
    have hl : ∀ hh, parseHeading l = some hh → hh.level ≠ 2 :=
      hno2 l (List.mem_cons_self _ _)
    have hstep : (processLine documentTitle st l).sections = [] ∧
        (processLine documentTitle st l).currentHeadings = [documentTitle] ∧
        ((processLine documentTitle st l).currentContent = st.currentContent ∨
         (processLine documentTitle st l).currentContent = st.currentContent ++ [l]) := by
      unfold processLine
      rcases hp : parseHeading l with _ | hh
      · exact ⟨hsec, hhead, Or.inr rfl⟩
      · simp only
        split
        · exact ⟨hsec, hhead, Or.inl rfl⟩
        · split
          · exact absurd (by assumption) (hl hh hp)
          · refine ⟨hsec, ?_, Or.inr rfl⟩
            simp only [hhead]
            split
            · rfl
            · rfl
    obtain ⟨hs1, hh1, hc1⟩ := hstep
    obtain ⟨hs2, hh2, hc2⟩ := ih (processLine documentTitle st l)
      (fun line hline => hno2 line (List.mem_cons_of_mem _ hline)) hs1 hh1
    refine ⟨by simpa using hs2, by simpa using hh2, ?_⟩
    simp only [List.foldl_cons]
    rcases hc1 with hc1 | hc1
    · exact hc2.trans (by rw [hc1]; exact List.Sublist.append_left (by simp) _)
    · exact hc2.trans (by rw [hc1]; simp)

/-- On a body without level-2 headings whose trimmed length reaches
`MIN_CHUNK_SIZE`, `splitByH2Sections` yields exactly one section, headed by
the document title, whose content is no longer than the body. -/
lemma splitByH2Sections_no_h2 (body documentTitle : String)
    (hno2 : ∀ line ∈ jsSplitLines body, ∀ hh, parseHeading line = some hh → hh.level ≠ 2)
    (hmin : MIN_CHUNK_SIZE ≤ jsLength (jsTrim body)) :
    ∃ content, splitByH2Sections body documentTitle = [⟨[documentTitle], content⟩] ∧
      jsLength content ≤ jsLength body := by
  obtain ⟨hsec, hhead, hsub⟩ :=
    foldl_no_h2 documentTitle (jsSplitLines body) ⟨[documentTitle], [], false, []⟩ hno2 rfl rfl
  have hcc : List.Sublist ((jsSplitLines body).foldl (processLine documentTitle)
      ⟨[documentTitle], [], false, []⟩).currentContent (jsSplitLines body) := by
    simpa using hsub
  have hcclen : jsLength (jsJoinLines ((jsSplitLines body).foldl (processLine documentTitle)
      ⟨[documentTitle], [], false, []⟩).currentContent) ≤ jsLength body := by
    calc jsLength (jsJoinLines _) ≤ jsLength (jsJoinLines (jsSplitLines body)) :=
          jsJoinLines_mono hcc
      _ = jsLength body := by rw [jsJoinLines_jsSplitLines]
  by_cases h1 : ((jsSplitLines body).foldl (processLine documentTitle)
      ⟨[documentTitle], [], false, []⟩).currentContent.length > 0
  · by_cases h2 : MIN_CHUNK_SIZE ≤ jsLength (jsTrim (jsJoinLines
        ((jsSplitLines body).foldl (processLine documentTitle)
          ⟨[documentTitle], [], false, []⟩).currentContent))
    · refine ⟨jsTrim (jsJoinLines ((jsSplitLines body).foldl (processLine documentTitle)
          ⟨[documentTitle], [], false, []⟩).currentContent), ?_,
        le_trans (jsLength_jsTrim_le _) hcclen⟩
      simp only [splitByH2Sections, hsec, hhead]
      simp [flushSection, h1, h2]
    · refine ⟨jsTrim body, ?_, jsLength_jsTrim_le _⟩
      simp only [splitByH2Sections, hsec, hhead]
      simp [flushSection, h1, h2, hmin]
  · refine ⟨jsTrim body, ?_, jsLength_jsTrim_le _⟩
    simp only [splitByH2Sections, hsec, hhead]
    simp [flushSection, h1, hmin]

/-- C5 as amended: a document whose body has no level-2 heading, whose
trimmed body length is at least `MIN_CHUNK_SIZE`, and whose body length is
at most `TARGET_CHUNK_SIZE` yields exactly one chunk, headed only by
`[title]`.  (The two amendments: the minimum applies to the trimmed body —
a whitespace-padded body can yield no chunk at all — and a body beyond
`TARGET_CHUNK_SIZE` can be re-split into several chunks.) -/
theorem single_chunk_when_no_h2 (relativePath packageAlias : String)
    (metadata : ChunkMetadata) (title body : String)
    (hno2 : ∀ line ∈ jsSplitLines body, ∀ hh, parseHeading line = some hh → hh.level ≠ 2)
    (hmin : MIN_CHUNK_SIZE ≤ jsLength (jsTrim body))
    (hmax : jsLength body ≤ TARGET_CHUNK_SIZE) :
    ∃ c, chunkFileCore relativePath packageAlias metadata title body = [c] ∧
      c.headings = [title] := by
  obtain ⟨content, hsplit, hlen⟩ := splitByH2Sections_no_h2 body title hno2 hmin
  refine ⟨⟨relativePath ++ "#" ++ toString 0, content, relativePath, packageAlias,
    [title], metadata⟩, ?_, rfl⟩
  have hone : splitLargeSection ⟨[title], content⟩ = [⟨[title], content⟩] := by
    simp [splitLargeSection, le_trans hlen hmax]
  simp [chunkFileCore, hsplit, hone, List.enum]

/-- The 602-character two-paragraph body of the C5 counterexample. -/
def c5Body : String :=
  String.mk (List.replicate 300 'a') ++ "\n\n" ++ String.mk (List.replicate 300 'b')

/-- Counterexample to C5 as stated: `c5Body` has no level-2 heading and its
(untrimmed and trimmed) length 602 is at least `MIN_CHUNK_SIZE`, yet the
chunker yields two chunks, not one — the 602-character single section is
re-split on the paragraph boundary. -/
theorem single_chunk_cex :
    (∀ line ∈ jsSplitLines c5Body, ∀ hh, parseHeading line = some hh → hh.level ≠ 2) ∧
    MIN_CHUNK_SIZE ≤ jsLength c5Body ∧
    MIN_CHUNK_SIZE ≤ jsLength (jsTrim c5Body) ∧
    (chunkFileCore "d.md" "k" ⟨"T", none, none, []⟩ "T" c5Body).length = 2 :=
  ⟨by decide, by decide, by decide, by decide⟩

/-- Witness for C5 (amended) on a concrete 120-character headingless body. -/
theorem single_chunk_when_no_h2_witness :
    (∀ line ∈ jsSplitLines (String.mk (List.replicate 120 'a')),
      ∀ hh, parseHeading line = some hh → hh.level ≠ 2) ∧
    MIN_CHUNK_SIZE ≤ jsLength (jsTrim (String.mk (List.replicate 120 'a'))) ∧
    jsLength (String.mk (List.replicate 120 'a')) ≤ TARGET_CHUNK_SIZE ∧
    ∃ c, chunkFileCore "w.md" "k" ⟨"T", none, none, []⟩ "T"
        (String.mk (List.replicate 120 'a')) = [c] ∧ c.headings = ["T"] :=
  ⟨by decide, by decide, by decide,
    single_chunk_when_no_h2 "w.md" "k" ⟨"T", none, none, []⟩ "T"
      (String.mk (List.replicate 120 'a')) (by decide) (by decide) (by decide)⟩

/-! ## Claims C1 and C10: Reciprocal Rank Fusion -/

/-- The 1-based rank of an id in a result list (`none` when absent). -/
def rank1 (idv : String) : List RankedResult → Option Nat
  | [] => none
  | r :: rest => if r.id = idv then some 1 else (rank1 idv rest).map (· + 1)

/-- The first record with the given id in a result list. -/
def findDoc (idv : String) : List RankedResult → Option RankedResult
  | [] => none
  | r :: rest => if r.id = idv then some r else findDoc idv rest

/-- The 0-based position (counted from `j`) and record of an id. -/
def findRank (j : Nat) (idv : String) : List RankedResult → Option (Nat × RankedResult)
  | [] => none
  | d :: rest => if d.id = idv then some (j, d) else findRank (j + 1) idv rest

/-- The keys of the association list, in insertion order. -/
def mapKeys (m : List (String × Entry)) : List String := m.map (·.1)

lemma mapGet_eq_none : ∀ {m : List (String × Entry)} {key : String},
    mapGet m key = none ↔ key ∉ mapKeys m
  | [], key => by simp [mapGet, mapKeys]
  | (k, v) :: rest, key => by
    simp only [mapGet, mapKeys, List.map_cons, List.mem_cons]
    by_cases h : k = key
    · simp [h]
    · rw [if_neg h, mapGet_eq_none]
      simp only [mapKeys]
      constructor
      · intro hn
        rintro (h1 | h1)
        · exact h h1.symm
        · exact hn h1
      · intro hn h1
        exact hn (Or.inr h1)

lemma mapGet_mapSet_self : ∀ (m : List (String × Entry)) (key : String) (v : Entry),
    mapGet (mapSet m key v) key = some v
  | [], key, v => by simp [mapGet, mapSet]
  | (k, v') :: rest, key, v => by
    simp only [mapSet]
    by_cases h : k = key
    · simp [mapGet, h]
    · simp only [if_neg h, mapGet, if_neg h]
      exact mapGet_mapSet_self rest key v

lemma mapGet_mapSet_ne : ∀ (m : List (String × Entry)) {key key' : String} (v : Entry),
    key ≠ key' → mapGet (mapSet m key v) key' = mapGet m key'
  | [], key, key', v, h => by simp [mapGet, mapSet, h]
  | (k, v') :: rest, key, key', v, h => by
    simp only [mapSet]
    by_cases hk : k = key
    · subst hk
      simp [mapGet, h]
    · simp only [if_neg hk, mapGet]
      by_cases hk' : k = key'
      · simp [hk']
      · simp only [if_neg hk']
        exact mapGet_mapSet_ne rest v h

lemma mapKeys_mapSet_mem : ∀ {m : List (String × Entry)} {key : String} (v : Entry),
    key ∈ mapKeys m → mapKeys (mapSet m key v) = mapKeys m
  | [], key, v, h => by simp [mapKeys] at h
  | (k, v') :: rest, key, v, h => by
    simp only [mapSet]
    by_cases hk : k = key
    · simp [mapKeys, hk]
    · simp only [if_neg hk, mapKeys, List.map_cons, List.cons.injEq, true_and]
      have : key ∈ mapKeys rest := by
        simp only [mapKeys, List.map_cons, List.mem_cons] at h
        exact h.resolve_left (fun hh => hk hh.symm)
      exact mapKeys_mapSet_mem v this

lemma mapSet_append : ∀ {m : List (String × Entry)} {key : String} (v : Entry),
    key ∉ mapKeys m → mapSet m key v = m ++ [(key, v)]
  | [], key, v, _ => rfl
  | (k, v') :: rest, key, v, h => by
    have hsplit : ¬ k = key ∧ key ∉ mapKeys rest := by
      simp only [mapKeys, List.map_cons, List.mem_cons, not_or] at h
      exact ⟨fun hk => h.1 hk.symm, h.2⟩
    simp only [mapSet, if_neg hsplit.1, List.cons_append, List.cons.injEq, true_and]
    exact mapSet_append v hsplit.2

lemma mem_mapSet : ∀ {m : List (String × Entry)} {key : String} {v : Entry}
    {p : String × Entry}, p ∈ mapSet m key v → p ∈ m ∨ p = (key, v)
  | [], key, v, p, h => by simpa [mapSet] using h
  | (k, v') :: rest, key, v, p, h => by
    simp only [mapSet] at h
    by_cases hk : k = key
    · rw [if_pos hk] at h
      rcases List.mem_cons.mp h with h1 | h1
      · exact Or.inr (by rw [h1, hk])
      · exact Or.inl (List.mem_cons_of_mem _ h1)
    · rw [if_neg hk] at h
      rcases List.mem_cons.mp h with h1 | h1
      · exact Or.inl (by simp [h1])
      · rcases mem_mapSet h1 with h2 | h2
        · exact Or.inl (List.mem_cons_of_mem _ h2)
        · exact Or.inr h2

lemma mapGet_some_mem : ∀ {m : List (String × Entry)} {key : String} {e : Entry},
    mapGet m key = some e → (key, e) ∈ m
  | [], key, e, h => by simp [mapGet] at h
  | (k, v) :: rest, key, e, h => by
    simp only [mapGet] at h
    by_cases hk : k = key
    · subst hk
      rw [if_pos rfl] at h
      cases h
      exact List.mem_cons_self _ _
    · rw [if_neg hk] at h
      exact List.mem_cons_of_mem _ (mapGet_some_mem h)

lemma mapGet_of_mem_nodup : ∀ {m : List (String × Entry)} {key : String} {e : Entry},
    (mapKeys m).Nodup → (key, e) ∈ m → mapGet m key = some e
  | [], key, e, _, h => by simp at h
  | (k, v) :: rest, key, e, hnd, h => by
    simp only [mapKeys, List.map_cons, List.nodup_cons] at hnd
    rcases List.mem_cons.mp h with h1 | h1
    · cases h1
      simp [mapGet]
    · have hk : ¬ k = key := by
        intro hk
        subst hk
        exact hnd.1 (List.mem_map.mpr ⟨(k, e), h1, rfl⟩)
      simp only [mapGet, if_neg hk]
      exact mapGet_of_mem_nodup hnd.2 h1

/-- The map-value well-formedness invariant of `reciprocalRankFusion`:
every entry stores the record whose id is its key. -/
def mapWF (m : List (String × Entry)) : Prop := ∀ p ∈ m, p.2.doc.id = p.1

lemma findRank_eq_none {idv : String} : ∀ {docs : List RankedResult} (j : Nat),
    idv ∉ docs.map (·.id) → findRank j idv docs = none
  | [], _, _ => rfl
  | d :: rest, j, h => by
    simp only [List.map_cons, List.mem_cons] at h
    push_neg at h
    simp only [findRank, if_neg (fun hh : d.id = idv => h.1 hh.symm)]
    exact findRank_eq_none (j + 1) h.2

lemma findRank_shift {idv : String} : ∀ (docs : List RankedResult) (j : Nat),
    findRank j idv docs = (findRank 0 idv docs).map (fun p => (p.1 + j, p.2))
  | [], j => rfl
  | d :: rest, j => by
    simp only [findRank]
    by_cases h : d.id = idv
    · simp [h]
    · rw [if_neg h, if_neg h, findRank_shift rest (j + 1), findRank_shift rest 1,
        Option.map_map]
      rcases findRank 0 idv rest with _ | p
      · rfl
      · show some (p.1 + (j + 1), p.2) = some (p.1 + 1 + j, p.2)
        simp only [Option.some.injEq, Prod.mk.injEq]
        exact ⟨by omega, trivial⟩

lemma rank1_eq_findRank {idv : String} : ∀ docs : List RankedResult,
    rank1 idv docs = (findRank 0 idv docs).map (fun p => p.1 + 1)
  | [] => rfl
  | d :: rest => by
    simp only [rank1, findRank]
    by_cases h : d.id = idv
    · simp [h]
    · rw [if_neg h, if_neg h, rank1_eq_findRank rest, findRank_shift rest 1,
        Option.map_map, Option.map_map]
      rfl

lemma findDoc_eq_findRank {idv : String} : ∀ docs : List RankedResult,
    findDoc idv docs = (findRank 0 idv docs).map (·.2)
  | [] => rfl
  | d :: rest => by
    simp only [findDoc, findRank]
    by_cases h : d.id = idv
    · simp [h]
    · rw [if_neg h, if_neg h, findDoc_eq_findRank rest, findRank_shift rest 1,
        Option.map_map]
      rfl

lemma findRank_some {idv : String} : ∀ {docs : List RankedResult} {j : Nat}
    {p : Nat × RankedResult}, findRank j idv docs = some p → p.2.id = idv ∧ p.2 ∈ docs
  | [], _, _, h => by simp [findRank] at h
  | d :: rest, j, p, h => by
    simp only [findRank] at h
    by_cases hd : d.id = idv
    · rw [if_pos hd] at h
      cases h
      exact ⟨hd, List.mem_cons_self _ _⟩
    · rw [if_neg hd] at h
      obtain ⟨h1, h2⟩ := findRank_some h
      exact ⟨h1, List.mem_cons_of_mem _ h2⟩

lemma mapGet_rrfStep_self (isFt : Bool) (w kq : ℚ) (m : List (String × Entry))
    (d : RankedResult) (rank : Nat) :
    mapGet (rrfStep isFt w kq m d rank) d.id =
      some (match mapGet m d.id with
        | some e => updatedEntry isFt w kq e rank
        | none => newEntry isFt w kq d rank) := by
  unfold rrfStep
  rcases mapGet m d.id with _ | e <;> simp [mapGet_mapSet_self]

lemma mapGet_rrfStep_ne (isFt : Bool) (w kq : ℚ) (m : List (String × Entry))
    (d : RankedResult) (rank : Nat) {x : String} (hx : d.id ≠ x) :
    mapGet (rrfStep isFt w kq m d rank) x = mapGet m x := by
  unfold rrfStep
  rcases mapGet m d.id with _ | e <;> rw [mapGet_mapSet_ne _ _ hx]

/-- Pointwise characterization of one `forEach` phase of
`reciprocalRankFusion`: provided the processed list has distinct ids, the
entry of `x` afterwards is its old entry updated (or a fresh entry) when
`x` occurs in the list, and its old entry otherwise. -/
lemma processDocs_mapGet (isFt : Bool) (w kq : ℚ) :
    ∀ (docs : List RankedResult) (j : Nat) (m : List (String × Entry)) (x : String),
      (docs.map (·.id)).Nodup →
      mapGet (processDocs isFt w kq m j docs) x =
        match findRank j x docs with
        | some (rk, d) =>
          some (match mapGet m x with
            | some e => updatedEntry isFt w kq e rk
            | none => newEntry isFt w kq d rk)
        | none => mapGet m x := by
  intro docs
  induction docs with
  | nil =>
    intro j m x _
    rfl
  | cons d rest ih =>
    intro j m x hnd
    simp only [List.map_cons, List.nodup_cons] at hnd
    simp only [processDocs]
    rw [ih (j + 1) (rrfStep isFt w kq m d j) x hnd.2]
    by_cases hx : d.id = x
    · subst hx
      rw [findRank_eq_none (j + 1) hnd.1]
      simp only [findRank, if_pos rfl]
      exact mapGet_rrfStep_self isFt w kq m d j
    · rw [mapGet_rrfStep_ne isFt w kq m d j hx]
      simp only [findRank, if_neg hx]

/-- The keys after one `forEach` phase: the old keys followed by the new ids
in list order. -/
lemma processDocs_mapKeys (isFt : Bool) (w kq : ℚ) :
    ∀ (docs : List RankedResult) (j : Nat) (m : List (String × Entry)),
      (docs.map (·.id)).Nodup →
      mapKeys (processDocs isFt w kq m j docs) =
        mapKeys m ++ (docs.map (·.id)).filter (fun i => !decide (i ∈ mapKeys m)) := by
  intro docs
  induction docs with
  | nil =>
    intro j m _
    simp [processDocs]
  | cons d rest ih =>
    intro j m hnd
    simp only [List.map_cons, List.nodup_cons] at hnd
    simp only [processDocs]
    rw [ih (j + 1) (rrfStep isFt w kq m d j) hnd.2]
    by_cases hd : d.id ∈ mapKeys m
    · obtain ⟨e, he⟩ : ∃ e, mapGet m d.id = some e := by
        rcases hg : mapGet m d.id with _ | e
        · exact absurd (mapGet_eq_none.mp hg) (by simpa using hd)
        · exact ⟨e, rfl⟩
      have hkeys : mapKeys (rrfStep isFt w kq m d j) = mapKeys m := by
        unfold rrfStep
        rw [he]
        exact mapKeys_mapSet_mem _ hd
      rw [hkeys]
      simp only [List.map_cons, List.filter_cons]
      rw [if_neg (by simp [hd])]
    · have hnone : mapGet m d.id = none := mapGet_eq_none.mpr hd
      have hkeys : mapKeys (rrfStep isFt w kq m d j) = mapKeys m ++ [d.id] := by
        unfold rrfStep
        rw [hnone, mapSet_append _ hd]
        simp [mapKeys]
      rw [hkeys]
      simp only [List.map_cons, List.filter_cons]
      rw [if_pos (by simp [hd])]
      rw [List.filter_congr (fun a ha => ?_), List.append_assoc, List.singleton_append]
      have hane : a ≠ d.id := by
        intro hh
        exact hnd.1 (hh ▸ ha)
      simp [List.mem_append, hane]

/-- Every phase preserves the invariant that entries store the record whose
id is their key. -/
lemma mapWF_processDocs (isFt : Bool) (w kq : ℚ) :
    ∀ (docs : List RankedResult) (j : Nat) (m : List (String × Entry)),
      mapWF m → mapWF (processDocs isFt w kq m j docs) := by
  intro docs
  induction docs with
  | nil =>
    intro j m hm
    exact hm
  | cons d rest ih =>
    intro j m hm
    apply ih
    intro p hp
    unfold rrfStep at hp
    rcases hg : mapGet m d.id with _ | e <;> rw [hg] at hp <;>
      rcases mem_mapSet hp with h1 | h1
    · exact hm p h1
    · subst h1
      rfl
    · exact hm p h1
    · subst h1
      exact hm (d.id, e) (mapGet_some_mem hg)

/-- The entry that weighted RRF assigns to an id, as a function of the id's
0-based positions in the two input lists: the two weighted reciprocal-rank
terms are summed, the record fields come from the fulltext record when the
id appears there and from the vector record otherwise, and `sources` holds
the 1-based ranks. -/
def specEntry (wf wv kq : ℚ) (ft vec : List RankedResult) (x : String) : Option Entry :=
  match findRank 0 x ft, findRank 0 x vec with
  | some (i, df), some (jv, _) =>
    some { score := wf * (1 / (kq + i + 1)) + wv * (1 / (kq + jv + 1)), doc := df,
           sources := ⟨some (i + 1), some (jv + 1)⟩ }
  | some (i, df), none =>
    some { score := wf * (1 / (kq + i + 1)), doc := df, sources := ⟨some (i + 1), none⟩ }
  | none, some (jv, dv) =>
    some { score := wv * (1 / (kq + jv + 1)), doc := dv, sources := ⟨none, some (jv + 1)⟩ }
  | none, none => none

/-- The final `scores` map of `reciprocalRankFusion` agrees pointwise with
`specEntry`. -/
lemma rrf_mapGet (wf wv kq : ℚ) (ft vec : List RankedResult)
    (hft : (ft.map (·.id)).Nodup) (hvec : (vec.map (·.id)).Nodup) (x : String) :
    mapGet (processDocs false wv kq (processDocs true wf kq [] 0 ft) 0 vec) x =
      specEntry wf wv kq ft vec x := by
  rw [processDocs_mapGet false wv kq vec 0 _ x hvec,
    processDocs_mapGet true wf kq ft 0 [] x hft]
  rcases h1 : findRank 0 x ft with _ | ⟨i, df⟩ <;>
    rcases h2 : findRank 0 x vec with _ | ⟨jv, dv⟩ <;>
      simp [specEntry, h1, h2, updatedEntry, newEntry, mapGet]

/-- Membership characterization of the fused output: every result renders an
entry described by `specEntry` at its own id. -/
lemma rrf_mem_char (ft vec : List RankedResult) (options : RRFOptions)
    (hft : (ft.map (·.id)).Nodup) (hvec : (vec.map (·.id)).Nodup) {r : FusionResult}
    (hr : r ∈ reciprocalRankFusion ft vec options) :
    ∃ e : Entry,
      specEntry (options.fulltextWeight.getD (2 / 5)) (options.vectorWeight.getD (3 / 5))
        (options.k.getD 60) ft vec r.id = some e ∧
      r.score = e.score ∧ r.sources = e.sources ∧ r.id = e.doc.id ∧
      r.content = e.doc.content ∧ r.path = e.doc.path ∧ r.pkg = e.doc.pkg ∧
      r.title = e.doc.title := by
  simp only [reciprocalRankFusion] at hr
  obtain ⟨e, he, rfl⟩ := List.mem_map.mp hr
  have hev : e ∈ (processDocs false (options.vectorWeight.getD (3 / 5)) (options.k.getD 60)
      (processDocs true (options.fulltextWeight.getD (2 / 5)) (options.k.getD 60) [] 0 ft)
      0 vec).map (·.2) :=
    ((List.perm_insertionSort _ _).mem_iff).mp he
  obtain ⟨⟨key, e'⟩, hp, hpe⟩ := List.mem_map.mp hev
  simp only at hpe
  subst hpe
  have hwf : e'.doc.id = key := by
    refine mapWF_processDocs false _ _ vec 0 _ (mapWF_processDocs true _ _ ft 0 [] ?_) _ hp
    intro p hp0
    exact absurd hp0 (List.not_mem_nil p)
  have hm1 : mapKeys (processDocs true (options.fulltextWeight.getD (2 / 5))
      (options.k.getD 60) [] 0 ft) = ft.map (·.id) := by
    rw [processDocs_mapKeys true _ _ ft 0 [] hft]
    simp only [mapKeys, List.map_nil, List.nil_append]
    apply List.filter_eq_self.mpr
    intro a _
    simp
  have hnodup : (mapKeys (processDocs false (options.vectorWeight.getD (3 / 5))
      (options.k.getD 60) (processDocs true (options.fulltextWeight.getD (2 / 5))
        (options.k.getD 60) [] 0 ft) 0 vec)).Nodup := by
    rw [processDocs_mapKeys false _ _ vec 0 _ hvec]
    simp only [hm1]
    refine List.Nodup.append hft (hvec.filter _) ?_
    intro x hx1 hx2
    have := List.of_mem_filter hx2
    simp only [Bool.not_eq_true', decide_eq_false_iff_not] at this
    exact this hx1
  have hget := mapGet_of_mem_nodup hnodup hp
  rw [rrf_mapGet _ _ _ ft vec hft hvec key] at hget
  refine ⟨e', ?_, rfl, rfl, rfl, rfl, rfl, rfl, rfl⟩
  simpa only [hwf] using hget

/-- The ids of the fused output are a permutation of the fulltext ids
followed by the vector-only ids. -/
lemma rrf_ids_perm (ft vec : List RankedResult) (options : RRFOptions)
    (hft : (ft.map (·.id)).Nodup) (hvec : (vec.map (·.id)).Nodup) :
    ((reciprocalRankFusion ft vec options).map (·.id)).Perm
      (ft.map (·.id) ++ (vec.map (·.id)).filter (fun i => !decide (i ∈ ft.map (·.id)))) := by
  have hwf : mapWF (processDocs false (options.vectorWeight.getD (3 / 5)) (options.k.getD 60)
      (processDocs true (options.fulltextWeight.getD (2 / 5)) (options.k.getD 60) [] 0 ft)
      0 vec) := by
    refine mapWF_processDocs false _ _ vec 0 _ (mapWF_processDocs true _ _ ft 0 [] ?_)
    intro p hp0
    exact absurd hp0 (List.not_mem_nil p)
  have hm1 : mapKeys (processDocs true (options.fulltextWeight.getD (2 / 5))
      (options.k.getD 60) [] 0 ft) = ft.map (·.id) := by
    rw [processDocs_mapKeys true _ _ ft 0 [] hft]
    simp only [mapKeys, List.map_nil, List.nil_append]
    apply List.filter_eq_self.mpr
    intro a _
    simp
  have hkeys : mapKeys (processDocs false (options.vectorWeight.getD (3 / 5))
      (options.k.getD 60) (processDocs true (options.fulltextWeight.getD (2 / 5))
        (options.k.getD 60) [] 0 ft) 0 vec) =
      ft.map (·.id) ++ (vec.map (·.id)).filter (fun i => !decide (i ∈ ft.map (·.id))) := by
    rw [processDocs_mapKeys false _ _ vec 0 _ hvec]
    simp only [hm1]
  have h0 : (reciprocalRankFusion ft vec options).map (·.id) =
      (sortEntriesDesc ((processDocs false (options.vectorWeight.getD (3 / 5))
        (options.k.getD 60) (processDocs true (options.fulltextWeight.getD (2 / 5))
          (options.k.getD 60) [] 0 ft) 0 vec).map (·.2))).map (fun e => e.doc.id) := by
    simp only [reciprocalRankFusion, List.map_map]
    rfl
  rw [h0, ← hkeys]
  refine ((List.perm_insertionSort _ _).map (fun e : Entry => e.doc.id)).trans ?_
  rw [List.map_map]
  have hmapeq : List.map ((fun e : Entry => e.doc.id) ∘ (fun x : String × Entry => x.2))
      (processDocs false (options.vectorWeight.getD (3 / 5)) (options.k.getD 60)
        (processDocs true (options.fulltextWeight.getD (2 / 5)) (options.k.getD 60) [] 0 ft)
        0 vec) =
      List.map (fun p : String × Entry => p.1)
        (processDocs false (options.vectorWeight.getD (3 / 5)) (options.k.getD 60)
          (processDocs true (options.fulltextWeight.getD (2 / 5)) (options.k.getD 60) [] 0 ft)
          0 vec) :=
    List.map_congr_left (fun p hp => hwf p hp)
  rw [hmapeq]
  exact List.Perm.refl _

/-- The fulltext record `a` of the C1 example. -/
def exA : RankedResult := ⟨"a", "ca", "pa", "k", "Ta", 1⟩

/-- The shared record `b` of the C1 example. -/
def exB : RankedResult := ⟨"b", "cb", "pb", "k", "Tb", 1⟩

/-- The vector record `c` of the C1 example. -/
def exC : RankedResult := ⟨"c", "cc", "pc", "k", "Tc", 1⟩

/-- C1: for input lists with per-list distinct ids, every fused result's
score is the sum, over the sources in which its id appears, of
`w_s * 1 / (k + rank_s)` with 1-based ranks and defaults `k = 60`,
`wf = 0.4`, `wv = 0.6`; a document absent from a source contributes nothing
from it.  In particular fusing fulltext `[a, b]` with vector `[b, c]` under
defaults scores `b = 0.4/62 + 0.6/61`, `c = 0.6/62`, `a = 0.4/61` and
returns them in the order `[b, c, a]`. -/
theorem rrf_weighted_sum (ft vec : List RankedResult) (options : RRFOptions)
    (hft : (ft.map (·.id)).Nodup) (hvec : (vec.map (·.id)).Nodup) :
    (∀ r ∈ reciprocalRankFusion ft vec options,
      r.score =
        (match rank1 r.id ft with
          | some n => options.fulltextWeight.getD (2 / 5) * (1 / (options.k.getD 60 + n))
          | none => 0) +
        (match rank1 r.id vec with
          | some n => options.vectorWeight.getD (3 / 5) * (1 / (options.k.getD 60 + n))
          | none => 0)) ∧
    (reciprocalRankFusion [exA, exB] [exB, exC] {}).map (fun r => (r.id, r.score)) =
      [("b", 2 / 5 * (1 / 62) + 3 / 5 * (1 / 61)), ("c", 3 / 5 * (1 / 62)),
        ("a", 2 / 5 * (1 / 61))] := by
  constructor
  · intro r hr
    obtain ⟨e, hspec, hscore, _, _, _, _, _, _⟩ := rrf_mem_char ft vec options hft hvec hr
    rw [hscore, rank1_eq_findRank, rank1_eq_findRank]
    rcases h1 : findRank 0 r.id ft with _ | ⟨i, df⟩ <;>
      rcases h2 : findRank 0 r.id vec with _ | ⟨jv, dv⟩ <;>
        simp only [specEntry, h1, h2, Option.map_none', Option.map_some'] at hspec ⊢
    · exact absurd hspec (by simp)
    · injection hspec with hh
      subst hh
      push_cast
      ring
    · injection hspec with hh
      subst hh
      push_cast
      ring
    · injection hspec with hh
      subst hh
      push_cast
      ring
  · norm_num [reciprocalRankFusion, processDocs, rrfStep, mapGet, mapSet, updatedEntry,
      newEntry, sortEntriesDesc, List.insertionSort, List.orderedInsert, exA, exB, exC]

/-- Witness for C1 at the concrete example lists. -/
theorem rrf_weighted_sum_witness :
    (([exA, exB] : List RankedResult).map (·.id)).Nodup ∧
    (([exB, exC] : List RankedResult).map (·.id)).Nodup ∧
    (∀ r ∈ reciprocalRankFusion [exA, exB] [exB, exC] {},
      r.score =
        (match rank1 r.id [exA, exB] with
          | some n =>
            ({} : RRFOptions).fulltextWeight.getD (2 / 5) *
              (1 / (({} : RRFOptions).k.getD 60 + n))
          | none => 0) +
        (match rank1 r.id [exB, exC] with
          | some n =>
            ({} : RRFOptions).vectorWeight.getD (3 / 5) *
              (1 / (({} : RRFOptions).k.getD 60 + n))
          | none => 0)) :=
  ⟨by decide, by decide,
    (rrf_weighted_sum [exA, exB] [exB, exC] {} (by decide) (by decide)).1⟩

/-- C10: for input lists with per-list distinct ids, the fusion returns
exactly one result per id in the union of the two lists (no id dropped or
duplicated); each result's `sources` field records the 1-based position of
its id in each list in which it appears (absent otherwise), and its record
fields are copied from the fulltext record when the id appears in the
fulltext list, otherwise from the vector record. -/
theorem rrf_union_provenance (ft vec : List RankedResult) (options : RRFOptions)
    (hft : (ft.map (·.id)).Nodup) (hvec : (vec.map (·.id)).Nodup) :
    ((reciprocalRankFusion ft vec options).map (·.id)).Nodup ∧
    (∀ x : String, x ∈ (reciprocalRankFusion ft vec options).map (·.id) ↔
      (x ∈ ft.map (·.id) ∨ x ∈ vec.map (·.id))) ∧
    (∀ r ∈ reciprocalRankFusion ft vec options,
      r.sources.fulltext = rank1 r.id ft ∧
      r.sources.vector = rank1 r.id vec ∧
      (match findDoc r.id ft with
        | some d => r.content = d.content ∧ r.path = d.path ∧ r.pkg = d.pkg ∧ r.title = d.title
        | none =>
          match findDoc r.id vec with
          | some d => r.content = d.content ∧ r.path = d.path ∧ r.pkg = d.pkg ∧ r.title = d.title
          | none => False)) := by
  refine ⟨?_, ?_, ?_⟩
  · rw [(rrf_ids_perm ft vec options hft hvec).nodup_iff]
    refine List.Nodup.append hft (hvec.filter _) ?_
    intro x hx1 hx2
    have := List.of_mem_filter hx2
    simp only [Bool.not_eq_true', decide_eq_false_iff_not] at this
    exact this hx1
  · intro x
    rw [(rrf_ids_perm ft vec options hft hvec).mem_iff]
    simp only [List.mem_append, List.mem_filter, Bool.not_eq_true', decide_eq_false_iff_not]
    constructor
    · rintro (h | h)
      · exact Or.inl h
      · exact Or.inr h.1
    · rintro (h | h)
      · exact Or.inl h
      · by_cases hf : x ∈ ft.map (·.id)
        · exact Or.inl hf
        · exact Or.inr ⟨h, hf⟩
  · intro r hr
    obtain ⟨e, hspec, _, hsrc, _, hc, hp, hk, ht⟩ := rrf_mem_char ft vec options hft hvec hr
    rw [hsrc, rank1_eq_findRank, rank1_eq_findRank, findDoc_eq_findRank, findDoc_eq_findRank]
    rcases h1 : findRank 0 r.id ft with _ | ⟨i, df⟩ <;>
      rcases h2 : findRank 0 r.id vec with _ | ⟨jv, dv⟩ <;>
        simp only [specEntry, h1, h2, Option.map_none', Option.map_some'] at hspec ⊢
    · exact absurd hspec (by simp)
    · injection hspec with hh
      subst hh
      exact ⟨rfl, rfl, hc, hp, hk, ht⟩
    · injection hspec with hh
      subst hh
      exact ⟨rfl, rfl, hc, hp, hk, ht⟩
    · injection hspec with hh
      subst hh
      exact ⟨rfl, rfl, hc, hp, hk, ht⟩

/-- Witness for C10 at the concrete example lists. -/
theorem rrf_union_provenance_witness :
    (([exA, exB] : List RankedResult).map (·.id)).Nodup ∧
    (([exB, exC] : List RankedResult).map (·.id)).Nodup ∧
    ((reciprocalRankFusion [exA, exB] [exB, exC] {}).map (·.id)).Nodup ∧
    (∀ x : String, x ∈ (reciprocalRankFusion [exA, exB] [exB, exC] {}).map (·.id) ↔
      (x ∈ ([exA, exB] : List RankedResult).map (·.id) ∨
        x ∈ ([exB, exC] : List RankedResult).map (·.id))) :=
  ⟨by decide, by decide,
    (rrf_union_provenance [exA, exB] [exB, exC] {} (by decide) (by decide)).1,
    (rrf_union_provenance [exA, exB] [exB, exC] {} (by decide) (by decide)).2.1⟩

end Nocaap
